import Mathlib

/-!
Shallow embedding of three deck.gl plugin modules:
* `modules/extensions/src/data-filter/data-filter-extension.ts`
  (constructor validation, `_getCategoryKey`, the category bitmask
  computation and the item-count readback branch of `draw`),
* `modules/widgets/src/fullscreen-widget.tsx`
  (`handleClick`, `requestFullscreen`, `exitFullscreen`, `onRemove`),
* `modules/carto/src/sources/vector-table-source.ts`
  (`CartoVectorTableSource` url-parameter shaping).

JavaScript objects used as maps are modelled as insertion-ordered
association lists keyed by the string coercion of the key (as the `in`
operator and property assignment coerce keys to strings); `Uint32Array`
cells are naturals reduced modulo `2 ^ 32` on each store, and stores at
an out-of-range index are dropped, as they are on a typed array.
-/

namespace DeckGL

/-! ## Data-filter extension: constructor validation -/

/-- Table `DATA_TYPE_FROM_SIZE`: maps a channel count to a GLSL type name;
lookup at any other index is `undefined` (here `none`). -/
def DATA_TYPE_FROM_SIZE (n : Int) : Option String :=
  if n = 1 then some "float"
  else if n = 2 then some "vec2"
  else if n = 3 then some "vec3"
  else if n = 4 then some "vec4"
  else none

/-- The options stored by a successfully constructed `DataFilterExtension`. -/
structure DataFilterExtensionOptions where
  categorySize : Int
  filterSize : Int
  fp64 : Bool
  countItems : Bool
  deriving DecidableEq, Repr

/-- Constructor of `DataFilterExtension`: checks `categorySize` then
`filterSize` against `DATA_TYPE_FROM_SIZE` and throws before calling
`super` (i.e. before any state exists) when a check fails. -/
def DataFilterExtension.construct (categorySize filterSize : Int)
    (fp64 countItems : Bool) : Except String DataFilterExtensionOptions :=
  if (DATA_TYPE_FROM_SIZE categorySize).isNone then
    .error "categorySize out of range"
  else if (DATA_TYPE_FROM_SIZE filterSize).isNone then
    .error "filterSize out of range"
  else
    .ok ⟨categorySize, filterSize, fp64, countItems⟩

/-! ## Data-filter extension: `_getCategoryKey` -/

/-- A category value handed to `_getCategoryKey`; the accessor is untyped
in the source, so both numbers and strings occur. -/
inductive CategoryValue where
  | num (n : Int)
  | str (s : String)
  deriving DecidableEq, Repr

/-- String coercion applied by a JavaScript property access
(`category in categoryMap`, `categoryMap[category] = ...`). -/
def CategoryValue.toStr : CategoryValue → String
  | .num n => toString n
  | .str s => s

/-- State `this.state.categoryMap`: a plain object used as an insertion-ordered
map from the string coercion of a category value to its key. -/
abbrev CategoryMap := List (String × Nat)

/-- Property lookup on the category map (first and only binding wins,
object keys being unique). -/
def lookupCat : CategoryMap → String → Option Nat
  | [], _ => none
  | (s, k) :: rest, t => if t = s then some k else lookupCat rest t

/-- Number of own keys of the map, `Object.keys(categoryMap).length`. -/
def CategoryMap.size (m : CategoryMap) : Nat := List.length m

/-- Method `_getCategoryKey`: if the (string-coerced) category is absent the next
sequential key `Object.keys(categoryMap).length` is recorded for it;
either way the recorded key is returned together with the updated map. -/
def getCategoryKey (m : CategoryMap) (v : CategoryValue) : Nat × CategoryMap :=
  match lookupCat m v.toStr with
  | some k => (k, m)
  | none => (m.size, m ++ [(v.toStr, m.size)])

/-- A sequence of `_getCategoryKey` calls on one layer instance: returns
the keys in call order and the final category map. -/
def runKeys : CategoryMap → List CategoryValue → List Nat × CategoryMap
  | m, [] => ([], m)
  | m, v :: vs =>
    let (k, m1) := getCategoryKey m v
    let (ks, m2) := runKeys m1 vs
    (k :: ks, m2)

/-- One step of collecting first occurrences: append `s` unless already
present. -/
def addFirst (acc : List String) (s : String) : List String :=
  if s ∈ acc then acc else acc ++ [s]

/-- The distinct strings of `l` in order of first occurrence. -/
def firstOccs (l : List String) : List String :=
  l.foldl addFirst []

/-- The association list pairing each string with its position, starting
from `n`. -/
def enumFrom : Nat → List String → CategoryMap
  | _, [] => []
  | n, s :: rest => (s, n) :: enumFrom (n + 1) rest

/-- The position of `s` in `l` (first match; `l.length` when absent). -/
def posOf : List String → String → Nat
  | [], _ => 0
  | t :: rest, s => if s = t then 0 else posOf rest s + 1

/-! ## Data-filter extension: category bitmask in `draw` -/

/-- Value `maxCategories = categorySize === 1 ? 128 : categorySize === 2 ? 64 : 32`. -/
def maxCategories (categorySize : Nat) : Nat :=
  if categorySize = 1 then 128 else if categorySize = 2 then 64 else 32

/-- Store `categoryBitMask[i] += v` on a `Uint32Array(4)`: the stored word wraps
modulo `2 ^ 32`, and a store at an index past the end is dropped (as on a
typed array; `List.set` likewise ignores an out-of-range index). -/
def bumpWord (mask : List Nat) (i : Nat) (v : Nat) : List Nat :=
  mask.set i ((mask.getD i 0 + v) % 2 ^ 32)

/-- The inner loop of the bitmask computation for one channel group `c`:
each category is resolved through `_getCategoryKey` (threading the
category map), then
`channel = c * (maxCategories / 32) + Math.floor(key / 32)` and
`categoryBitMask[channel] += Math.pow(2, key % 32)`. -/
def accumCategories (cs c : Nat) :
    List Nat → CategoryMap → List CategoryValue → List Nat × CategoryMap
  | mask, m, [] => (mask, m)
  | mask, m, v :: vs =>
    let (key, m1) := getCategoryKey m v
    let channel := c * (maxCategories cs / 32) + key / 32
    accumCategories cs c (bumpWord mask channel (2 ^ (key % 32))) m1 vs

/-- The outer loop of the bitmask computation over the channel groups
`c = 0, 1, ...` of `categoryFilters`. -/
def accumFilters (cs : Nat) :
    Nat → List Nat → CategoryMap → List (List CategoryValue) → List Nat × CategoryMap
  | _, mask, m, [] => (mask, m)
  | c, mask, m, f :: fs =>
    let (mask1, m1) := accumCategories cs c mask m f
    accumFilters cs (c + 1) mask1 m1 fs

/-- The category bitmask part of `draw`, starting from the cleared
`new Uint32Array([0, 0, 0, 0])`, over the normalized `categoryFilters`;
returns the uniform value and the updated category map. -/
def computeCategoryBitMask (cs : Nat) (m : CategoryMap)
    (categoryFilters : List (List CategoryValue)) : List Nat × CategoryMap :=
  accumFilters cs 0 [0, 0, 0, 0] m categoryFilters

/-- The bitmask computation for `categorySize === 1`, where the
`filterCategoryList` prop is a flat list and the loop runs over
`[filterCategoryList]`. -/
def computeCategoryBitMask1 (m : CategoryMap)
    (filterCategoryList : List CategoryValue) : List Nat × CategoryMap :=
  computeCategoryBitMask 1 m [filterCategoryList]

/-! ## Data-filter extension: item-count readback branch of `draw` -/

/-- The event passed to `onFilteredItemsChange`. -/
structure FilteredItemsEvent where
  id : String
  count : Nat
  deriving DecidableEq, Repr

/-- The readback summation loop
`for (let i = 0; i < color.length; i++) count += color[i]`. -/
def sumColor (color : List Nat) : Nat :=
  color.foldl (fun count x => count + x) 0

/-- The item-counting branch of `draw`: guarded by
`filterNeedsUpdate && onFilteredItemsChange && filterModel`; when taken it
reports `{id: this.id, count}` and clears `this.state.filterNeedsUpdate`.
Returns the event fired (if any) and the new `filterNeedsUpdate` flag. -/
def drawCounting (layerId : String) (filterNeedsUpdate hasCallback hasModel : Bool)
    (readback : List Nat) : Option FilteredItemsEvent × Bool :=
  if filterNeedsUpdate && hasCallback && hasModel then
    (some ⟨layerId, sumColor readback⟩, false)
  else
    (none, filterNeedsUpdate)

/-! ## Fullscreen widget -/

/-- Canvas element of the host deck: the `canvas`, with its of the host deck, with its `parentElement`
(DOM nodes are identified by numeric handles). -/
structure DeckCanvas where
  parentElement : Option Nat
  deriving DecidableEq, Repr

/-- The host `Deck` instance as seen by the widget. -/
structure DeckInstance where
  canvas : Option DeckCanvas
  deriving DecidableEq, Repr

/-- The widget props (after the constructor filled the label default). -/
structure FullscreenWidgetProps where
  id : String
  label : String
  deriving DecidableEq, Repr

/-- The mutable state of a `FullscreenWidget` instance. -/
structure FullscreenWidget where
  id : String
  viewId : Option String
  placement : String
  props : FullscreenWidgetProps
  isFullscreen : Bool
  deck : Option DeckInstance
  element : Option Nat
  deriving DecidableEq, Repr

/-- A call made against the platform fullscreen API. -/
inductive FsApiCall where
  | requestFullscreen (parentElement : Nat)
  | exitFullscreen
  deriving DecidableEq, Repr

/-- One of the widget's own toggle methods, as dispatched by
`handleClick`. -/
inductive WidgetMethod where
  | requestFullscreen
  | exitFullscreen
  deriving DecidableEq, Repr

/-- Method `onRemove()`: `this.deck = undefined; this.element = undefined;`. -/
def FullscreenWidget.onRemove (w : FullscreenWidget) : FullscreenWidget :=
  { w with deck := none, element := none }

/-- Method `requestFullscreen()`: awaits
`this.deck?.canvas?.parentElement?.requestFullscreen(...)` (the optional
chain makes no platform call when a link is missing) and then sets
`this.isFullscreen = true`. Returns the new state and the platform calls
made. -/
def FullscreenWidget.requestFullscreen (w : FullscreenWidget) :
    FullscreenWidget × List FsApiCall :=
  let calls :=
    match w.deck with
    | none => []
    | some d =>
      match d.canvas with
      | none => []
      | some cv =>
        match cv.parentElement with
        | none => []
        | some p => [FsApiCall.requestFullscreen p]
  ({ w with isFullscreen := true }, calls)

/-- Method `exitFullscreen()`: awaits `document.exitFullscreen()` and sets
`this.isFullscreen = false`. -/
def FullscreenWidget.exitFullscreen (w : FullscreenWidget) :
    FullscreenWidget × List FsApiCall :=
  ({ w with isFullscreen := false }, [FsApiCall.exitFullscreen])

/-- Method `handleClick()`: `if (!document.fullscreenElement)` dispatch to
`this.requestFullscreen()`, else to `this.exitFullscreen()`. Returns the
new state, the widget methods invoked, and the platform calls made. -/
def FullscreenWidget.handleClick (w : FullscreenWidget)
    (fullscreenElement : Option Nat) :
    FullscreenWidget × List WidgetMethod × List FsApiCall :=
  if fullscreenElement.isNone then
    let (w1, api) := w.requestFullscreen
    (w1, [WidgetMethod.requestFullscreen], api)
  else
    let (w1, api) := w.exitFullscreen
    (w1, [WidgetMethod.exitFullscreen], api)

/-! ## Carto vector table source -/

/-- The options consumed by `CartoVectorTableSource` (columns and
spatial data column are optional). -/
structure CartoVectorTableSourceOptions where
  tableName : String
  columns : Option (List String)
  spatialDataColumn : Option String
  deriving DecidableEq, Repr

/-- Object `UrlParameters` as built by `CartoVectorTableSource`; a `none`
field is an absent key. -/
structure UrlParameters where
  name : String
  columns : Option String
  geo_column : Option String
  deriving DecidableEq, Repr

/-- The source-type tag `MAP_TYPES.TABLE` forwarded to the base source. -/
inductive MapType where
  | TABLE
  deriving DecidableEq, Repr

/-- The argument tuple handed to the shared `CartoBaseSource` fetch
helper. -/
structure BaseSourceCall where
  mapType : MapType
  options : CartoVectorTableSourceOptions
  urlParameters : UrlParameters
  deriving DecidableEq, Repr

/-- Function `CartoVectorTableSource`: builds `{name: tableName}`, adds
`columns: columns.join(',')` when `columns` is present (any array is
truthy), adds `geo_column: spatialDataColumn` when that string is present
and non-empty (the empty string is falsy), and delegates to
`CartoBaseSource(MAP_TYPES.TABLE, options, urlParameters, format)`. -/
def CartoVectorTableSource (options : CartoVectorTableSourceOptions) :
    BaseSourceCall :=
  let urlParameters0 : UrlParameters := ⟨options.tableName, none, none⟩
  let urlParameters1 :=
    match options.columns with
    | some cs => { urlParameters0 with columns := some (String.intercalate "," cs) }
    | none => urlParameters0
  let urlParameters2 :=
    match options.spatialDataColumn with
    | some s => if s = "" then urlParameters1 else { urlParameters1 with geo_column := some s }
    | none => urlParameters1
  ⟨MapType.TABLE, options, urlParameters2⟩

/-! ## Theorems -/

/-- Lookup in the association list `enumFrom n d` finds the position of
the first match, offset by `n`. -/
theorem lookupCat_enumFrom (d : List String) :
    ∀ (n : Nat) (s : String),
      lookupCat (enumFrom n d) s = if s ∈ d then some (n + posOf d s) else none := by
  induction d with
  | nil => intro n s; simp [enumFrom, lookupCat]
  | cons t d ih =>
    intro n s
    simp only [enumFrom, lookupCat, posOf]
    by_cases h : s = t
    · simp [h]
    · rw [if_neg h, ih (n + 1) s]
      by_cases hm : s ∈ d
      · rw [if_pos hm, if_pos (List.mem_cons_of_mem t hm), if_neg h]
        congr 1
        omega
      · rw [if_neg hm, if_neg (by simp [h, hm])]

/-- Length of `enumFrom` matches the underlying list. -/
theorem enumFrom_length (d : List String) : ∀ n, (enumFrom n d).length = d.length := by
  induction d with
  | nil => intro n; rfl
  | cons t d ih => intro n; simp [enumFrom, ih]

/-- Lemma `enumFrom` distributes over appending one element. -/
theorem enumFrom_append_single (d : List String) :
    ∀ n s, enumFrom n (d ++ [s]) = enumFrom n d ++ [(s, n + d.length)] := by
  induction d with
  | nil => intro n s; rfl
  | cons t d ih =>
    intro n s
    show (t, n) :: enumFrom (n + 1) (d ++ [s])
        = (t, n) :: (enumFrom (n + 1) d ++ [(s, n + (t :: d).length)])
    rw [ih (n + 1) s]
    have harith : n + 1 + d.length = n + (t :: d).length := by
      simp only [List.length_cons]
      omega
    rw [harith]

/-- Second components produced by `enumFrom n d` are below `n + d.length`. -/
theorem enumFrom_snd_lt (d : List String) :
    ∀ n e, e ∈ enumFrom n d → e.2 < n + d.length := by
  induction d with
  | nil => intro n e he; simp [enumFrom] at he
  | cons t d ih =>
    intro n e he
    simp only [enumFrom, List.mem_cons] at he
    rcases he with rfl | he
    · simp only [List.length_cons]
      omega
    · have := ih (n + 1) e he
      simp only [List.length_cons]
      omega

/-- Position is stable under appending on the right for present elements. -/
theorem posOf_append_left (d : List String) (s : String) :
    ∀ t, s ∈ d → posOf (d ++ t) s = posOf d s := by
  induction d with
  | nil => intro t h; simp at h
  | cons u d ih =>
    intro t h
    show (if s = u then 0 else posOf (d ++ t) s + 1)
        = if s = u then 0 else posOf d s + 1
    by_cases hs : s = u
    · rw [if_pos hs, if_pos hs]
    · have h2 : s ∈ d := by
        rcases List.mem_cons.1 h with h1 | h2
        · exact absurd h1 hs
        · exact h2
      rw [if_neg hs, if_neg hs, ih t h2]

/-- Position of a fresh element appended at the end is the old length. -/
theorem posOf_append_self (d : List String) (s : String) :
    s ∉ d → posOf (d ++ [s]) s = d.length := by
  induction d with
  | nil => intro h; simp [posOf]
  | cons u d ih =>
    intro h
    have hs : s ≠ u := fun hc => h (hc ▸ List.mem_cons_self u d)
    show (if s = u then 0 else posOf (d ++ [s]) s + 1) = (u :: d).length
    rw [if_neg hs, ih (fun hc => h (List.mem_cons_of_mem u hc))]
    rfl

/-- Position of a present element is below the length. -/
theorem posOf_lt_length (d : List String) (s : String) :
    s ∈ d → posOf d s < d.length := by
  induction d with
  | nil => intro h; simp at h
  | cons u d ih =>
    intro h
    simp only [posOf, List.length_cons]
    by_cases hs : s = u
    · simp [hs]
    · rw [if_neg hs]
      have := ih (by rcases List.mem_cons.1 h with h1 | h2; exact absurd h1 hs; exact h2)
      omega

/-- Folding `addFirst` only ever appends to the accumulator. -/
theorem foldl_addFirst_extends (l : List String) :
    ∀ d, ∃ t, List.foldl addFirst d l = d ++ t := by
  induction l with
  | nil => intro d; exact ⟨[], by simp⟩
  | cons s l ih =>
    intro d
    simp only [List.foldl_cons]
    by_cases h : s ∈ d
    · have ha : addFirst d s = d := by simp [addFirst, h]
      rw [ha]
      exact ih d
    · have ha : addFirst d s = d ++ [s] := by simp [addFirst, h]
      obtain ⟨t, ht⟩ := ih (d ++ [s])
      exact ⟨[s] ++ t, by rw [ha, ht, List.append_assoc]⟩

/-- Every element of the input ends up in the `addFirst` fold. -/
theorem mem_foldl_addFirst (l : List String) :
    ∀ (d : List String) (s : String), s ∈ l → s ∈ List.foldl addFirst d l := by
  induction l with
  | nil => intro d s h; simp at h
  | cons u l ih =>
    intro d s h
    simp only [List.foldl_cons]
    rcases List.mem_cons.1 h with rfl | h2
    · obtain ⟨t, ht⟩ := foldl_addFirst_extends l (addFirst d s)
      rw [ht]
      apply List.mem_append_left
      unfold addFirst
      by_cases hd : s ∈ d
      · rwa [if_pos hd]
      · rw [if_neg hd]
        exact List.mem_append_right d (List.mem_singleton.2 rfl)
    · exact ih (addFirst d u) s h2

/-- Main invariant of a `_getCategoryKey` call sequence: starting from the
map that assigns positions to the distinct strings `d`, the key returned
for each value is the position of its string coercion among the distinct
strings in first-occurrence order, and the final map assigns positions to
exactly those distinct strings. -/
theorem runKeys_enumFrom (vs : List CategoryValue) :
    ∀ d : List String,
      (runKeys (enumFrom 0 d) vs).1
          = vs.map (fun v =>
              posOf (List.foldl addFirst d (vs.map CategoryValue.toStr)) v.toStr)
      ∧ (runKeys (enumFrom 0 d) vs).2
          = enumFrom 0 (List.foldl addFirst d (vs.map CategoryValue.toStr)) := by
  induction vs with
  | nil => intro d; exact ⟨rfl, rfl⟩
  | cons v vs ih =>
    intro d
    by_cases h : v.toStr ∈ d
    · have hk : getCategoryKey (enumFrom 0 d) v = (posOf d v.toStr, enumFrom 0 d) := by
        simp [getCategoryKey, lookupCat_enumFrom, h]
      have hfold : List.foldl addFirst d (v.toStr :: vs.map CategoryValue.toStr)
          = List.foldl addFirst d (vs.map CategoryValue.toStr) := by
        simp [List.foldl_cons, addFirst, h]
      obtain ⟨t, ht⟩ := foldl_addFirst_extends (vs.map CategoryValue.toStr) d
      refine ⟨?_, ?_⟩
      · simp only [runKeys, hk, List.map_cons, hfold]
        refine congrArg₂ _ ?_ (ih d).1
        rw [ht, posOf_append_left d v.toStr t h]
      · simp only [runKeys, hk, List.map_cons, hfold]
        exact (ih d).2
    · have hlook : lookupCat (enumFrom 0 d) v.toStr = none := by
        rw [lookupCat_enumFrom]
        exact if_neg h
      have happ : enumFrom 0 (d ++ [v.toStr]) = enumFrom 0 d ++ [(v.toStr, d.length)] := by
        rw [enumFrom_append_single]
        simp
      have hk : getCategoryKey (enumFrom 0 d) v
          = (d.length, enumFrom 0 (d ++ [v.toStr])) := by
        simp only [getCategoryKey, hlook, CategoryMap.size, enumFrom_length, happ]
      have hfold : List.foldl addFirst d (v.toStr :: vs.map CategoryValue.toStr)
          = List.foldl addFirst (d ++ [v.toStr]) (vs.map CategoryValue.toStr) := by
        simp [List.foldl_cons, addFirst, h]
      obtain ⟨t, ht⟩ := foldl_addFirst_extends (vs.map CategoryValue.toStr) (d ++ [v.toStr])
      refine ⟨?_, ?_⟩
      · simp only [runKeys, hk, List.map_cons, hfold]
        refine congrArg₂ _ ?_ (ih (d ++ [v.toStr])).1
        rw [ht, posOf_append_left (d ++ [v.toStr]) v.toStr t
          (List.mem_append_right d (List.mem_singleton.2 rfl)),
          posOf_append_self d v.toStr h]
      · simp only [runKeys, hk, List.map_cons, hfold]
        exact (ih (d ++ [v.toStr])).2

/-- Each `_getCategoryKey` call at most appends one binding: the map only
ever grows. -/
theorem runKeys_extends (ws : List CategoryValue) :
    ∀ m : CategoryMap, ∃ t, (runKeys m ws).2 = m ++ t := by
  induction ws with
  | nil => intro m; exact ⟨[], by simp [runKeys]⟩
  | cons v ws ih =>
    intro m
    cases hml : lookupCat m v.toStr with
    | some k =>
      obtain ⟨t, ht⟩ := ih m
      exact ⟨t, by simp [runKeys, getCategoryKey, hml, ht]⟩
    | none =>
      obtain ⟨t, ht⟩ := ih (m ++ [(v.toStr, m.size)])
      refine ⟨(v.toStr, m.size) :: t, ?_⟩
      simp [runKeys, getCategoryKey, hml, ht]

/-- Reading back the word just stored (in range). -/
theorem getD_set_self (l : List Nat) : ∀ (i a : Nat), i < l.length →
    (l.set i a).getD i 0 = a := by
  induction l with
  | nil => intro i a h; simp at h
  | cons x l ih =>
    intro i a h
    cases i with
    | zero => rfl
    | succ i => exact ih i a (by simpa using h)

/-- Reading any other word is unaffected by a store. -/
theorem getD_set_ne (l : List Nat) : ∀ (i j a : Nat), j ≠ i →
    (l.set i a).getD j 0 = l.getD j 0 := by
  induction l with
  | nil => intro i j a _; rfl
  | cons x l ih =>
    intro i j a h
    cases i with
    | zero =>
      cases j with
      | zero => exact absurd rfl h
      | succ j => rfl
    | succ i =>
      cases j with
      | zero => rfl
      | succ j => exact ih i j a (fun hc => h (by rw [hc]))

/-- Store `bumpWord` characterized word by word. -/
theorem getD_bumpWord (mask : List Nat) (i j v : Nat) (hj : j < mask.length) :
    (bumpWord mask i v).getD j 0
      = if j = i then (mask.getD j 0 + v) % 2 ^ 32 else mask.getD j 0 := by
  unfold bumpWord
  by_cases h : j = i
  · subst h
    rw [if_pos rfl, getD_set_self mask j _ hj]
  · rw [if_neg h, getD_set_ne mask i j _ h]

/-- Bound `2 ^ (k % 32) < 2 ^ 32`. -/
theorem pow_mod32_lt : ∀ k : Nat, 2 ^ (k % 32) < 2 ^ 32 := by
  intro k
  exact Nat.pow_lt_pow_right (by omega) (Nat.mod_lt _ (by omega))

/-- Words accumulated over a category list for `categorySize 1`, group 0:
each word is the wrapped sum, over all occurrences in order (with
multiplicity), of `2 ^ (key % 32)` for the keys landing in that word. -/
theorem accumCategories_sum_words (m : CategoryMap) (f : CategoryValue → Nat)
    (vs : List CategoryValue) :
    ∀ mask : List Nat, mask.length = 4 →
    (∀ v ∈ vs, lookupCat m v.toStr = some (f v) ∧ f v < 128) →
    (∀ j, j < 4 → mask.getD j 0 < 2 ^ 32) →
    ∀ j, j < 4 →
      (accumCategories 1 0 mask m vs).1.getD j 0
        = (mask.getD j 0
            + (((vs.map f).filter (fun k => k / 32 == j)).map (fun k => 2 ^ (k % 32))).sum)
          % 2 ^ 32 := by
  induction vs with
  | nil =>
    intro mask hlen _ hbound j hj
    simp only [accumCategories, List.map_nil, List.filter_nil, List.sum_nil, Nat.add_zero]
    exact (Nat.mod_eq_of_lt (hbound j hj)).symm
  | cons v vs ih =>
    intro mask hlen hf hbound j hj
    have hv := hf v (List.mem_cons_self v vs)
    have hk : getCategoryKey m v = (f v, m) := by
      simp [getCategoryKey, hv.1]
    have hch : 0 * (maxCategories 1 / 32) + f v / 32 = f v / 32 := by omega
    have hstep : accumCategories 1 0 mask m (v :: vs)
        = accumCategories 1 0 (bumpWord mask (f v / 32) (2 ^ (f v % 32))) m vs := by
      simp only [accumCategories, hk, hch]
    have hlen1 : (bumpWord mask (f v / 32) (2 ^ (f v % 32))).length = 4 := by
      simp [bumpWord, hlen]
    have hbound1 : ∀ i, i < 4 →
        (bumpWord mask (f v / 32) (2 ^ (f v % 32))).getD i 0 < 2 ^ 32 := by
      intro i hi
      rw [getD_bumpWord mask _ i _ (by omega)]
      by_cases h : i = f v / 32
      · rw [if_pos h]
        exact Nat.mod_lt _ (by norm_num)
      · rw [if_neg h]
        exact hbound i hi
    rw [hstep, ih _ hlen1 (fun w hw => hf w (List.mem_cons_of_mem v hw)) hbound1 j hj,
      getD_bumpWord mask _ j _ (by omega)]
    by_cases h : j = f v / 32
    · rw [if_pos h]
      have hfilter : ((v :: vs).map f).filter (fun k => k / 32 == j)
          = f v :: (vs.map f).filter (fun k => k / 32 == j) := by
        simp only [List.map_cons, List.filter_cons]
        rw [if_pos (by simp [h])]
      rw [hfilter, List.map_cons, List.sum_cons, Nat.mod_add_mod]
      ring_nf
    · rw [if_neg h]
      have hfilter : ((v :: vs).map f).filter (fun k => k / 32 == j)
          = (vs.map f).filter (fun k => k / 32 == j) := by
        simp only [List.map_cons, List.filter_cons]
        rw [if_neg (by simp; omega)]
      rw [hfilter]

/-- Unfolding: for `categorySize 1` the whole bitmask computation is the
single group-0 pass. -/
theorem computeCategoryBitMask1_eq (m : CategoryMap) (vs : List CategoryValue) :
    (computeCategoryBitMask1 m vs).1 = (accumCategories 1 0 [0, 0, 0, 0] m vs).1 := rfl

/-- C2 counterexample: the number `7` and the string `"7"` are two
distinct category values, yet after the first call the second distinct
value receives key 0 — the key assigned at the first value — rather than
key 1, because property keys are string-coerced. -/
theorem categoryKey_distinct_values_collide_cex :
    CategoryValue.num 7 ≠ CategoryValue.str "7"
    ∧ (runKeys [] [CategoryValue.num 7, CategoryValue.str "7"]).1 = [0, 0] := by
  constructor
  · decide
  · decide

/-- C2 (amended): identify category values by their string coercion; then
for every call sequence on one instance, the key returned for each value
is the position of its string among the distinct strings seen, in
first-occurrence order — so the n-th distinct string gets key n-1 and a
repeat returns the key from its first occurrence — the final map holds
exactly those strings with those keys, and the map only ever grows
(never evicted or reset). -/
theorem categoryKey_sequential_by_string (vs : List CategoryValue) :
    (runKeys [] vs).1
        = vs.map (fun v => posOf (firstOccs (vs.map CategoryValue.toStr)) v.toStr)
    ∧ (runKeys [] vs).2 = enumFrom 0 (firstOccs (vs.map CategoryValue.toStr))
    ∧ ∀ (m : CategoryMap) (ws : List CategoryValue), ∃ t, (runKeys m ws).2 = m ++ t := by
  have h := runKeys_enumFrom vs []
  exact ⟨h.1, h.2, fun m ws => runKeys_extends ws m⟩

set_option maxRecDepth 4000 in
/-- C8 counterexample: a sequence of 129 distinct category values makes
`_getCategoryKey` return the key 128, outside the 0–127 range. -/
theorem categoryKey_exceeds_127_cex :
    128 ∈ (runKeys [] ((List.range 129).map (fun n => CategoryValue.num (n : Int)))).1 := by
  decide

/-- C8 (amended): keys are the sequential 0, 1, 2, ... positions of the
distinct string coercions seen, so they stay in 0–127 provided at most
128 distinct values have been fed to the instance; with more, keys grow
past 127 (see the counterexample). -/
theorem categoryKey_bounded_when_few_values (vs : List CategoryValue)
    (h : (firstOccs (vs.map CategoryValue.toStr)).length ≤ 128) :
    (∀ k ∈ (runKeys [] vs).1, k < 128)
    ∧ (∀ e ∈ (runKeys [] vs).2, e.2 < 128) := by
  have hrun := runKeys_enumFrom vs []
  have h0 : enumFrom 0 ([] : List String) = ([] : CategoryMap) := rfl
  rw [h0] at hrun
  constructor
  · intro k hk
    rw [hrun.1] at hk
    obtain ⟨v, hv, rfl⟩ := List.mem_map.1 hk
    have hmem : v.toStr ∈ firstOccs (vs.map CategoryValue.toStr) :=
      mem_foldl_addFirst (vs.map CategoryValue.toStr) [] v.toStr
        (List.mem_map.2 ⟨v, hv, rfl⟩)
    exact lt_of_lt_of_le (posOf_lt_length _ _ hmem) h
  · intro e he
    rw [hrun.2] at he
    have := enumFrom_snd_lt (firstOccs (vs.map CategoryValue.toStr)) 0 e he
    omega

/-- Witness for C8 (amended) on two distinct values: both returned keys
are below 128. -/
theorem categoryKey_bounded_when_few_values_witness :
    (firstOccs ([CategoryValue.num 1, CategoryValue.num 2].map CategoryValue.toStr)).length ≤ 128
    ∧ ∀ k ∈ (runKeys [] [CategoryValue.num 1, CategoryValue.num 2]).1, k < 128 :=
  ⟨by decide,
   (categoryKey_bounded_when_few_values [CategoryValue.num 1, CategoryValue.num 2]
     (by decide)).1⟩

/-- C9: `_getCategoryKey` identifies category values by string coercion:
values with equal string coercions get identical treatment, and in
particular the number 7 and the string "7" — two distinct values — share
one key. -/
theorem categoryKey_string_coercion_collision :
    (∀ (m : CategoryMap) (v w : CategoryValue), v.toStr = w.toStr →
        getCategoryKey m v = getCategoryKey m w)
    ∧ (CategoryValue.num 7).toStr = (CategoryValue.str "7").toStr
    ∧ CategoryValue.num 7 ≠ CategoryValue.str "7"
    ∧ (runKeys [] [CategoryValue.num 7, CategoryValue.str "7"]).2 = [("7", 0)] := by
  refine ⟨fun m v w h => ?_, by decide, by decide, by decide⟩
  simp [getCategoryKey, h]

/-- Witness for C9: the number 7 and the string "7" get the same key from
the empty map. -/
theorem categoryKey_string_coercion_collision_witness :
    getCategoryKey [] (CategoryValue.num 7) = getCategoryKey [] (CategoryValue.str "7") :=
  categoryKey_string_coercion_collision.1 [] (CategoryValue.num 7) (CategoryValue.str "7")
    (by decide)

/-- C1: construction succeeds exactly when both channel counts are in
{1, 2, 3, 4}, storing the options; an out-of-range `categorySize` throws
"categorySize out of range" (checked first), and an out-of-range
`filterSize` throws "filterSize out of range" — in all cases before any
state is created. -/
theorem construct_validates_channel_counts (cs fs : Int) (fp ci : Bool) :
    ((cs = 1 ∨ cs = 2 ∨ cs = 3 ∨ cs = 4) → (fs = 1 ∨ fs = 2 ∨ fs = 3 ∨ fs = 4) →
      DataFilterExtension.construct cs fs fp ci = .ok ⟨cs, fs, fp, ci⟩)
    ∧ (¬(cs = 1 ∨ cs = 2 ∨ cs = 3 ∨ cs = 4) →
      DataFilterExtension.construct cs fs fp ci = .error "categorySize out of range")
    ∧ ((cs = 1 ∨ cs = 2 ∨ cs = 3 ∨ cs = 4) → ¬(fs = 1 ∨ fs = 2 ∨ fs = 3 ∨ fs = 4) →
      DataFilterExtension.construct cs fs fp ci = .error "filterSize out of range") := by
  have key : ∀ n : Int,
      (DATA_TYPE_FROM_SIZE n).isNone = true ↔ ¬(n = 1 ∨ n = 2 ∨ n = 3 ∨ n = 4) := by
    intro n
    unfold DATA_TYPE_FROM_SIZE
    split_ifs with h1 h2 h3 h4 <;> simp_all
  refine ⟨fun hc hf => ?_, fun hc => ?_, fun hc hf => ?_⟩
  · have h1 : (DATA_TYPE_FROM_SIZE cs).isNone = false := by
      cases hb : (DATA_TYPE_FROM_SIZE cs).isNone
      · rfl
      · exact absurd hc ((key cs).1 hb)
    have h2 : (DATA_TYPE_FROM_SIZE fs).isNone = false := by
      cases hb : (DATA_TYPE_FROM_SIZE fs).isNone
      · rfl
      · exact absurd hf ((key fs).1 hb)
    simp [DataFilterExtension.construct, h1, h2]
  · have h1 : (DATA_TYPE_FROM_SIZE cs).isNone = true := (key cs).2 hc
    simp [DataFilterExtension.construct, h1]
  · have h1 : (DATA_TYPE_FROM_SIZE cs).isNone = false := by
      cases hb : (DATA_TYPE_FROM_SIZE cs).isNone
      · rfl
      · exact absurd hc ((key cs).1 hb)
    have h2 : (DATA_TYPE_FROM_SIZE fs).isNone = true := (key fs).2 hf
    simp [DataFilterExtension.construct, h1, h2]

/-- Witness for C1 at concrete inputs: `categorySize = 5` is rejected with
the first error message, and `(1, 1)` is accepted. -/
theorem construct_validates_channel_counts_witness :
    DataFilterExtension.construct 5 1 false false = .error "categorySize out of range"
    ∧ DataFilterExtension.construct 1 1 false false = .ok ⟨1, 1, false, false⟩ :=
  ⟨(construct_validates_channel_counts 5 1 false false).2.1 (by decide),
   (construct_validates_channel_counts 1 1 false false).1 (by decide) (by decide)⟩

/-- C4: in the item-counting branch of `draw`, the count reported to
`onFilteredItemsChange` is the sum of all elements of the readback color
buffer, the event carries the layer id, and `filterNeedsUpdate` is
cleared afterwards. -/
theorem drawCounting_reports_sum_and_clears (layerId : String) (readback : List Nat) :
    (drawCounting layerId true true true readback).1
        = some ⟨layerId, readback.sum⟩
    ∧ (drawCounting layerId true true true readback).2 = false := by
  constructor
  · simp only [drawCounting, if_pos, sumColor, Bool.and_self]
    have h : ∀ (l : List Nat) (a : Nat), l.foldl (fun count x => count + x) a = a + l.sum := by
      intro l
      induction l with
      | nil => simp
      | cons x l ih => intro a; simp [List.foldl_cons, ih, List.sum_cons]; ring
    simp [h]
  · rfl

/-- C5: each invocation of the widget's click handler dispatches, by the
state of `document.fullscreenElement`, to exactly one of the two toggle
methods: with no active fullscreen element `requestFullscreen` runs once
and `exitFullscreen` never; with one active, `exitFullscreen` runs once
and `requestFullscreen` never. -/
theorem handleClick_toggles_once (w : FullscreenWidget) (fullscreenElement : Option Nat) :
    (fullscreenElement = none →
      ((w.handleClick fullscreenElement).2.1.count WidgetMethod.requestFullscreen = 1
       ∧ (w.handleClick fullscreenElement).2.1.count WidgetMethod.exitFullscreen = 0))
    ∧ (∀ e, fullscreenElement = some e →
      ((w.handleClick fullscreenElement).2.1.count WidgetMethod.exitFullscreen = 1
       ∧ (w.handleClick fullscreenElement).2.1.count WidgetMethod.requestFullscreen = 0)) := by
  constructor
  · rintro rfl
    simp [FullscreenWidget.handleClick, FullscreenWidget.requestFullscreen, List.count]
  · rintro e rfl
    simp [FullscreenWidget.handleClick, FullscreenWidget.exitFullscreen, List.count]

/-- Witness for C5 on a concrete detached widget: the no-fullscreen case
calls `requestFullscreen` once, the active case calls `exitFullscreen`
once. -/
theorem handleClick_toggles_once_witness :
    ((FullscreenWidget.mk "fullscreen" none "top-left" ⟨"fullscreen", "Toggle Fullscreen"⟩
        false none none).handleClick none).2.1.count WidgetMethod.requestFullscreen = 1
    ∧ ((FullscreenWidget.mk "fullscreen" none "top-left" ⟨"fullscreen", "Toggle Fullscreen"⟩
        false none none).handleClick (some 3)).2.1.count WidgetMethod.exitFullscreen = 1 :=
  ⟨((handleClick_toggles_once _ none).1 rfl).1,
   ((handleClick_toggles_once _ (some 3)).2 3 rfl).1⟩

/-- C7: `onRemove` clears both host references (`deck` and `element`) and
changes nothing else of the widget's state. -/
theorem onRemove_releases_host_refs (w : FullscreenWidget) :
    w.onRemove.deck = none ∧ w.onRemove.element = none
    ∧ w.onRemove.id = w.id ∧ w.onRemove.viewId = w.viewId
    ∧ w.onRemove.placement = w.placement ∧ w.onRemove.props = w.props
    ∧ w.onRemove.isFullscreen = w.isFullscreen := by
  simp [FullscreenWidget.onRemove]

/-- C6: for tableName "t1", columns ["a", "b"], spatialDataColumn "geom",
the url-parameter object is {name: "t1", columns: "a,b",
geo_column: "geom"} and is handed unchanged (with the unchanged options)
to the shared base-source fetch under the TABLE tag; absent `columns` or
`spatialDataColumn` leave the corresponding key absent. -/
theorem cartoVectorTableSource_url_parameters :
    (CartoVectorTableSource ⟨"t1", some ["a", "b"], some "geom"⟩).urlParameters
        = ⟨"t1", some "a,b", some "geom"⟩
    ∧ (CartoVectorTableSource ⟨"t1", some ["a", "b"], some "geom"⟩).mapType = MapType.TABLE
    ∧ (∀ opts : CartoVectorTableSourceOptions, opts.columns = none →
        (CartoVectorTableSource opts).urlParameters.columns = none)
    ∧ (∀ opts : CartoVectorTableSourceOptions, opts.spatialDataColumn = none →
        (CartoVectorTableSource opts).urlParameters.geo_column = none)
    ∧ (∀ opts : CartoVectorTableSourceOptions,
        (CartoVectorTableSource opts).options = opts
        ∧ (CartoVectorTableSource opts).urlParameters.name = opts.tableName) := by
  refine ⟨?_, rfl, fun opts h => ?_, fun opts h => ?_, fun opts => ⟨rfl, ?_⟩⟩
  · rfl
  · rcases opts with ⟨t, c, s⟩
    subst h
    rcases s with _ | s
    · rfl
    · simp only [CartoVectorTableSource]
      split <;> rfl
  · rcases opts with ⟨t, c, s⟩
    subst h
    rcases c with _ | c <;> rfl
  · rcases opts with ⟨t, c, s⟩
    rcases c with _ | c <;> rcases s with _ | s
    · rfl
    · simp only [CartoVectorTableSource]
      split <;> rfl
    · rfl
    · simp only [CartoVectorTableSource]
      split <;> rfl

/-- Witness for C6: with columns and spatialDataColumn absent, both keys
are omitted from the url parameters. -/
theorem cartoVectorTableSource_url_parameters_witness :
    (CartoVectorTableSource ⟨"t1", none, none⟩).urlParameters.columns = none
    ∧ (CartoVectorTableSource ⟨"t1", none, none⟩).urlParameters.geo_column = none :=
  ⟨cartoVectorTableSource_url_parameters.2.2.1 ⟨"t1", none, none⟩ rfl,
   cartoVectorTableSource_url_parameters.2.2.2.1 ⟨"t1", none, none⟩ rfl⟩

/-- C3: one category with key `k` contributes the addend `2 ^ (k % 32)` to
word `c * (maxCategories / 32) + k / 32` of the 4-word bitmask (all other
words untouched), `maxCategories` being 128/64/32 for categorySize
1/2/other; in particular for categorySize 1 a single key `k < 128`
(covering k = 0, 31, 32, 127) yields, from the cleared mask, exactly bit
`k % 32` of word `k / 32`. -/
theorem categoryBitMask_word_and_bit (cs c : Nat) (mask : List Nat)
    (m : CategoryMap) (v : CategoryValue) (k : Nat)
    (hk : lookupCat m v.toStr = some k) (hmask : mask.length = 4) (hk128 : k < 128) :
    (∀ j, j < 4 →
      (accumCategories cs c mask m [v]).1.getD j 0
        = if j = c * (maxCategories cs / 32) + k / 32
          then (mask.getD j 0 + 2 ^ (k % 32)) % 2 ^ 32
          else mask.getD j 0)
    ∧ maxCategories cs = (if cs = 1 then 128 else if cs = 2 then 64 else 32)
    ∧ (∀ j, j < 4 →
      (computeCategoryBitMask1 m [v]).1.getD j 0
        = if j = k / 32 then 2 ^ (k % 32) else 0) := by
  have hgk : getCategoryKey m v = (k, m) := by
    simp [getCategoryKey, hk]
  have hone : ∀ (cs1 c1 : Nat) (mask1 : List Nat),
      accumCategories cs1 c1 mask1 m [v]
        = (bumpWord mask1 (c1 * (maxCategories cs1 / 32) + k / 32) (2 ^ (k % 32)), m) := by
    intro cs1 c1 mask1
    simp only [accumCategories, hgk]
  refine ⟨fun j hj => ?_, rfl, fun j hj => ?_⟩
  · rw [hone, getD_bumpWord mask _ j _ (by omega)]
  · rw [computeCategoryBitMask1_eq, hone, getD_bumpWord [0, 0, 0, 0] _ j _ (by simp; omega)]
    have hch : 0 * (maxCategories 1 / 32) + k / 32 = k / 32 := by omega
    have h0 : ([0, 0, 0, 0] : List Nat).getD j 0 = 0 := by
      interval_cases j <;> rfl
    rw [hch, h0, Nat.zero_add]
    by_cases h : j = k / 32
    · rw [if_pos h, if_pos h, Nat.mod_eq_of_lt (pow_mod32_lt k)]
    · rw [if_neg h, if_neg h]

/-- Witness for C3 at categorySize 1, key 127: word 3 of the mask becomes
`2 ^ 31`. -/
theorem categoryBitMask_word_and_bit_witness :
    lookupCat [("d", 127)] (CategoryValue.str "d").toStr = some 127
    ∧ (computeCategoryBitMask1 [("d", 127)] [CategoryValue.str "d"]).1.getD 3 0 = 2 ^ 31 := by
  refine ⟨by decide, ?_⟩
  have h := (categoryBitMask_word_and_bit 1 0 [0, 0, 0, 0] [("d", 127)]
    (CategoryValue.str "d") 127 (by decide) (by decide) (by decide)).2.2 3 (by decide)
  simpa using h

/-- C10: the bitmask accumulation is addition with multiplicity, wrapped
at `2 ^ 32` by the `Uint32Array`: for categorySize 1 each word is the
wrapped sum of `2 ^ (key % 32)` over all occurrences of keys landing in
that word; in particular listing the same category twice yields word 2,
not word 1, so the operation is not idempotent. -/
theorem categoryBitMask_additive_with_multiplicity
    (m : CategoryMap) (vs : List CategoryValue) (f : CategoryValue → Nat)
    (hf : ∀ v ∈ vs, lookupCat m v.toStr = some (f v) ∧ f v < 128) :
    (∀ j, j < 4 →
      (computeCategoryBitMask1 m vs).1.getD j 0
        = (((vs.map f).filter (fun k => k / 32 == j)).map (fun k => 2 ^ (k % 32))).sum
          % 2 ^ 32)
    ∧ (computeCategoryBitMask1 [] [CategoryValue.str "a", CategoryValue.str "a"]).1
        = [2, 0, 0, 0]
    ∧ (computeCategoryBitMask1 [] [CategoryValue.str "a"]).1 = [1, 0, 0, 0]
    ∧ (computeCategoryBitMask1 [] [CategoryValue.str "a", CategoryValue.str "a"]).1
        ≠ (computeCategoryBitMask1 [] [CategoryValue.str "a"]).1 := by
  refine ⟨fun j hj => ?_, by decide, by decide, by decide⟩
  have hbound : ∀ i, i < 4 → ([0, 0, 0, 0] : List Nat).getD i 0 < 2 ^ 32 := by
    intro i hi
    interval_cases i <;> norm_num
  have h := accumCategories_sum_words m f vs [0, 0, 0, 0] rfl hf hbound j hj
  have h0 : ([0, 0, 0, 0] : List Nat).getD j 0 = 0 := by
    interval_cases j <;> rfl
  rw [computeCategoryBitMask1_eq, h, h0, Nat.zero_add]

/-- Witness for C10 with keys 0 and 33 and a duplicated category: word 0
sums two contributions of the duplicated key 0 and equals 2. -/
theorem categoryBitMask_additive_with_multiplicity_witness :
    ((CategoryValue.str "b").toStr = "b")
    ∧ (computeCategoryBitMask1 [("a", 0), ("b", 33)]
        [CategoryValue.str "a", CategoryValue.str "b", CategoryValue.str "a"]).1.getD 0 0
      = 2 := by
  refine ⟨rfl, ?_⟩
  have h := (categoryBitMask_additive_with_multiplicity [("a", 0), ("b", 33)]
    [CategoryValue.str "a", CategoryValue.str "b", CategoryValue.str "a"]
    (fun v => if v = CategoryValue.str "b" then 33 else 0)
    (by decide)).1 0 (by decide)
  rw [h]
  decide

end DeckGL
